import Mathlib

/-
Verification of the agent execution core of the ResearchAgent repository.

The Rust source is shallowly embedded: messages and tool calls become
inductive types, the LLM backend becomes an abstract function returning
Except values, stateful components (logger, memory store) become explicit
state passing, and the agent loop becomes a fueled recursive function plus
a reachability relation on transcripts. The append-only log sink of the
MessageLogger is modeled as a list of log entries, one entry per write
call, and the per-message hash (DefaultHasher in the source) is abstracted
as a function parameter.
-/

/-- Embeds `tools::ToolCall` (src/agent/src/tools/mod.rs): id, name and the
raw serialized argument payload. -/
structure ToolCall where
  id : String
  name : String
  args : String
deriving DecidableEq, Repr

/-- Embeds `llm::Message` (src/agent/src/llm/mod.rs): the tagged union of
User, Assistant (text plus ordered tool calls), System and Tool result
messages. -/
inductive Message where
  | user (content : String)
  | assistant (content : String) (tool_calls : List ToolCall)
  | system (content : String)
  | tool (id : String) (name : String) (result : String)
deriving DecidableEq, Repr

/-- Counts the maximal runs of non-whitespace characters; `afterSpace` is
true when the previous character was whitespace (or at the start). -/
def countWordsAux : List Char → Bool → Nat
  | [], _ => 0
  | c :: rest, afterSpace =>
    if c.isWhitespace then countWordsAux rest true
    else (if afterSpace then 1 else 0) + countWordsAux rest false

/-- Counts whitespace-delimited words of a string, as Rust
`str::split_whitespace().count()` does (empty chunks are skipped). -/
def countWords (s : String) : Nat :=
  countWordsAux s.data true

/-- Embeds `Message::ntokens` (src/agent/src/llm/mod.rs): the
whitespace-delimited word count of the message content. -/
def Message.ntokens : Message → Nat
  | .user content => countWords content
  | .assistant content _ => countWords content
  | .system content => countWords content
  | .tool _ _ result => countWords result

/-- Embeds `llm::CompletionResponse`: assistant text plus the ordered tool
calls returned by the backend. -/
structure CompletionResponse where
  content : String
  tool_calls : List ToolCall
deriving DecidableEq, Repr

/-- Embeds the error taxonomy of src/agent/src/error.rs. Error variants
carrying foreign payloads (serde, OpenAI, IO, task join) carry their
rendered message instead. -/
inductive Error where
  | jsonError (msg : String)
  | openaiError (msg : String)
  | llmResponseError (msg : String)
  | toolDoesNotExist (name : String)
  | missingArg (msg : String)
  | taskJoinError (msg : String)
  | agentWorkflowError (msg : String)
  | ioError (msg : String)
deriving DecidableEq, Repr

/-- Embeds `tools::ToolDefinition` (src/agent/src/tools/mod.rs); the JSON
parameter schema is kept as its serialized text. -/
structure ToolDefinition where
  name : String
  desc : String
  params : String
deriving DecidableEq, Repr

/-- The LLM backend capability (`llm::LLM::completion`), abstracted as a
function of the transcript, the advertised tool definitions and the
web-search flag. -/
def LLMFn : Type :=
  List Message → List ToolDefinition → Bool → Except Error CompletionResponse

/-- The fixed instructional prompt `PROMPT` of
src/agent/src/tools/summarize_history.rs. -/
def summarizePrompt : String :=
  "In order to keep the conversational history from becoming to long, you must generate a summary of the current chat history. \nInstructions: \n- The summary must compress the information, try to be as succinct as possible. The finaly summary should not be more than 1000 words in length.\n- Preserve key information from the conversational history. Remember that information stored using the memory tool can still be retrieved later. \n- Remember that you are a researcher, make sure to preserve any key findings or information that you will need to complete the task."

/-- Embeds `SummarizeHistory::summarize_history`
(src/agent/src/tools/summarize_history.rs). The completion request is sent
over the head transcript with no tools advertised and without the
web-search capability. `split_off` is rendered with take and drop. -/
def summarize_history (llm : LLMFn) (keep_last : Nat) (messages : List Message) :
    Except Error (List Message) :=
  if messages.length < 2 + keep_last then
    .ok messages
  else
    match llm (messages.take (messages.length - keep_last) ++
        [Message.user summarizePrompt]) [] false with
    | .error e => .error e
    | .ok result =>
        .ok ((messages.take (messages.length - keep_last) ++
            [Message.user summarizePrompt]).take 2 ++
          [Message.assistant result.content []] ++
          messages.drop (messages.length - keep_last))

/-- Embeds the `Callback` implementation for `SummarizeHistory`
(src/agent/src/callbacks/mod.rs): trigger compaction only when the total
word count over the transcript exceeds 5000. -/
def summarizeHistoryCallback (llm : LLMFn) (keep_last : Nat) (messages : List Message) :
    Except Error (List Message) :=
  if (messages.map Message.ntokens).sum > 5000 then
    summarize_history llm keep_last messages
  else
    .ok messages

/-- Embeds the blanket `impl Tool for T where T: FunctionalTool`
(src/agent/src/tools/mod.rs): invoke the functional tool on the call and
push its single result message onto the transcript. -/
def functionalToolInvoke (invoke_fn : ToolCall → Except Error Message)
    (args : ToolCall) (messages : List Message) : Except Error (List Message) :=
  match invoke_fn args with
  | .error e => .error e
  | .ok result => .ok (messages ++ [result])

/-- A registered tool capability (`tools::Tool::invoke`): full control over
the transcript. Per-invocation mutable tool state is not needed by any
verified claim, so a tool is a function of the call and the transcript. -/
def ToolImpl : Type := ToolCall → List Message → Except Error (List Message)

/-- A callback capability (`callbacks::Callback::call`). -/
def CallbackImpl : Type := List Message → Except Error (List Message)

/-- Embeds the `Agent` state (src/agent/src/agent.rs). The name-to-tool
HashMap is rendered as an association list. -/
structure Agent where
  llm : LLMFn
  tools : List (String × ToolImpl)
  tool_defs : List ToolDefinition
  callbacks : List CallbackImpl
  stop_condition : List Message → Bool
  llm_websearch : Bool

/-- Registry lookup `self.tools.get_mut(&tool_call.name)`. -/
def Agent.lookupTool (a : Agent) (name : String) : Option ToolImpl :=
  (a.tools.find? fun p => p.1 == name).map fun p => p.2

/-- Embeds `Agent::execute_tool_call` (src/agent/src/agent.rs): unknown
tool names fail with `ToolDoesNotExist`, otherwise the tool is invoked on
the call and the transcript. -/
def Agent.execute_tool_call (a : Agent) (tool_call : ToolCall) (messages : List Message) :
    Except Error (List Message) :=
  match a.lookupTool tool_call.name with
  | none => .error (.toolDoesNotExist tool_call.name)
  | some tool => tool tool_call messages

/-- The tool-call dispatch loop of `Agent::run`: each call, in array order,
receives the transcript produced so far; the first error aborts. -/
def Agent.executeToolCalls (a : Agent) (calls : List ToolCall) (messages : List Message) :
    Except Error (List Message) :=
  match calls with
  | [] => .ok messages
  | c :: rest =>
    match a.execute_tool_call c messages with
    | .error e => .error e
    | .ok ms => a.executeToolCalls rest ms

/-- The callback chain of `Agent::run`: callbacks run in registration
order, each seeing the output of the previous one; the first error
aborts. -/
def runCallbacks (cbs : List CallbackImpl) (messages : List Message) :
    Except Error (List Message) :=
  match cbs with
  | [] => .ok messages
  | cb :: rest =>
    match cb messages with
    | .error e => .error e
    | .ok ms => runCallbacks rest ms

/-- One iteration of the `Agent::run` while loop: completion request,
append of the assistant reply, tool dispatch in order, then the callback
chain. -/
def Agent.runStep (a : Agent) (messages : List Message) : Except Error (List Message) :=
  match a.llm messages a.tool_defs a.llm_websearch with
  | .error e => .error e
  | .ok next =>
    match a.executeToolCalls next.tool_calls
        (messages ++ [Message.assistant next.content next.tool_calls]) with
    | .error e => .error e
    | .ok ms => runCallbacks a.callbacks ms

/-- Embeds `Agent::run` (src/agent/src/agent.rs), with explicit fuel since
the while loop need not terminate; `.ok none` means the fuel ran out with
the stop predicate still false. -/
def Agent.run (a : Agent) (fuel : Nat) (messages : List Message) :
    Except Error (Option (List Message)) :=
  match fuel with
  | 0 => .ok none
  | Nat.succ f =>
    if a.stop_condition messages then .ok (some messages)
    else
      match a.runStep messages with
      | .error e => .error e
      | .ok ms => a.run f ms

/-- Transcripts reachable at loop-iteration boundaries of `Agent::run`:
the initial transcript, and the result of one further full iteration (stop
predicate false, completion, tool dispatch, callback chain) from a
reachable transcript. -/
inductive Agent.Reach (a : Agent) (init : List Message) : List Message → Prop where
  | here : Agent.Reach a init init
  | next {t u : List Message} : Agent.Reach a init t → a.stop_condition t = false →
      a.runStep t = .ok u → Agent.Reach a init u

/-- Processes one message against the list of still-unanswered tool-call
ids of the most recent assistant message: an assistant message is legal
only once every earlier call is answered, and a tool message must answer
a pending call id. -/
def stepPending (m : Message) (pending : List String) : Option (List String) :=
  match m with
  | .assistant _ calls => if pending.isEmpty then some (calls.map fun c => c.id) else none
  | .tool id _ _ => if pending.contains id then some (pending.erase id) else none
  | _ => some pending

/-- Folds `stepPending` over a transcript. -/
def scanPending (t : List Message) (pending : List String) : Option (List String) :=
  match t with
  | [] => some pending
  | m :: rest =>
    match stepPending m pending with
    | none => none
    | some p => scanPending rest p

/-- The transcript invariant at a model-turn boundary: every Tool message
answers a not-yet-answered call id of the most recent preceding Assistant
message, and no tool call is left unanswered. -/
def wfTranscript (t : List Message) : Bool :=
  scanPending t [] == some []

/-- One write to the append-only log sink of `MessageLogger`
(src/agent/src/callbacks/logger.rs): the document header written by
`new`, a step heading, one rendered message, the section terminator, or
the history-cleared marker. -/
inductive LogEntry where
  | header (name : String)
  | stepHeader (step : Nat)
  | message (m : Message)
  | sectionEnd
  | historyCleared
deriving DecidableEq, Repr

/-- The private state of `MessageLogger`: the recorded per-message hash
baseline and the step counter. -/
structure MessageLogger where
  last_hashes : List Nat
  step : Nat
deriving DecidableEq, Repr

/-- Embeds `MessageLogger::display_messages`: the step heading, the
messages in order, then the section terminator. -/
def MessageLogger.display_messages (step : Nat) (messages : List Message) : List LogEntry :=
  LogEntry.stepHeader step :: (messages.map LogEntry.message ++ [LogEntry.sectionEnd])

/-- Embeds `MessageLogger::prefix_match_len`: the number of positions at
which the zipped hash sequences agree. -/
def MessageLogger.prefix_match_len (last_hashes new_hashes : List Nat) : Nat :=
  (new_hashes.zip last_hashes).countP fun p => p.1 == p.2

/-- Embeds `MessageLogger::call` (src/agent/src/callbacks/logger.rs). The
per-message hash (`Message::get_hash`) is abstracted as the parameter
`getHash`; the writes are returned as the list of log entries, and the
transcript is returned unchanged as in the source. -/
def MessageLogger.call (getHash : Message → Nat) (st : MessageLogger)
    (messages : List Message) : MessageLogger × List LogEntry × List Message :=
  (⟨messages.map getHash, st.step + 1⟩,
   if (messages.map getHash).length < st.last_hashes.length ∨
       MessageLogger.prefix_match_len st.last_hashes (messages.map getHash) ≠
         st.last_hashes.length then
     LogEntry.historyCleared :: MessageLogger.display_messages st.step messages
   else
     MessageLogger.display_messages st.step (messages.drop st.last_hashes.length),
   messages)

/-- The shared key-value memory store of `KVMemoryTool`
(src/agent/src/tools/kv_memory.rs). The HashMap is rendered as an
association list with at most one entry per key (the enumeration order of
the HashMap is unspecified; the list fixes one). -/
abbrev Memory : Type := List (String × String)

/-- HashMap lookup: the value stored at the first binding of the key, if
any (the store keeps at most one binding per key). -/
def Memory.getVal : Memory → String → Option String
  | [], _ => none
  | p :: rest, k => if p.1 == k then some p.2 else Memory.getVal rest k

/-- HashMap insert: replace the value if the key is present, otherwise add
the binding. -/
def Memory.insertKV (m : Memory) (k v : String) : Memory :=
  if m.any fun p => p.1 == k then
    m.map fun p => if p.1 == k then (k, v) else p
  else
    m ++ [(k, v)]

/-- Embeds `KVMemoryTool::list_keys`: the fixed heading followed by one
line per key in memory. -/
def KVMemoryTool.list_keys (m : Memory) : String :=
  "Keys in memory:\n" ++ String.join (m.map fun p => "- " ++ p.1 ++ "\n")

/-- Embeds `KVMemoryTool::get_key`: the value rendering when the key is
present, the not-in-memory message otherwise. -/
def KVMemoryTool.get_key (m : Memory) (key : String) : String :=
  match m.getVal key with
  | some value => "value of key " ++ key ++ ":\n" ++ value
  | none => "key " ++ key ++ " is not in memory"

/-- Embeds `KVMemoryTool::set_key`: the acknowledgement message and the
updated store. -/
def KVMemoryTool.set_key (m : Memory) (key value : String) : String × Memory :=
  ("key " ++ key ++ " inserted into memory", m.insertKV key value)

/-- Embeds `MemoryGetTool::invoke_fn` at the parsed-argument level: a Tool
message carrying the get result; the call never fails after parsing. -/
def MemoryGetTool.invoke_fn (m : Memory) (callId key : String) : Except Error Message :=
  .ok (Message.tool callId "memory_get_key" (KVMemoryTool.get_key m key))

/-- Embeds `MemorySetTool::invoke_fn` at the parsed-argument level: the
acknowledgement Tool message plus the updated store. -/
def MemorySetTool.invoke_fn (m : Memory) (callId key value : String) :
    Except Error Message × Memory :=
  (.ok (Message.tool callId "memory_set_key" (KVMemoryTool.set_key m key value).1),
   (KVMemoryTool.set_key m key value).2)

/-- Embeds `MemoryListTool::invoke_fn`: a Tool message enumerating the
keys in memory. -/
def MemoryListTool.invoke_fn (m : Memory) (callId : String) : Except Error Message :=
  .ok (Message.tool callId "memory_list_keys" (KVMemoryTool.list_keys m))

/-- A sequence of memory_set_key operations applied in order. -/
def Memory.applySets (sets : List (String × String)) (m : Memory) : Memory :=
  sets.foldl (fun m p => m.insertKV p.1 p.2) m

/-- The role tag of a backend chat response message
(async_openai `Role`). -/
inductive Role where
  | system
  | user
  | assistant
  | tool
  | function
deriving DecidableEq, Repr

/-- One choice message of a backend chat response: role, optional content
and optional tool calls, already rendered at the `llm::ToolCall` shape. -/
structure ResponseMessage where
  role : Role
  content : Option String
  tool_calls : Option (List ToolCall)
deriving DecidableEq, Repr

/-- Embeds the response-validation half of `OpenAI::completion`
(src/agent/src/llm/openai.rs), from the list of returned choices to the
completion result: empty choices, a first-choice role other than
`Role::User`, and missing content are `LLMResponseError`; otherwise the
content and the flattened optional tool-call list are returned. -/
def OpenAI.completion (choices : List ResponseMessage) : Except Error CompletionResponse :=
  match choices with
  | [] => .error (.llmResponseError "choices is empty")
  | first :: _ =>
    if first.role ≠ Role.user then
      .error (.llmResponseError "expected role to be assistant")
    else
      match first.content with
      | none => .error (.llmResponseError "content is empty")
      | some content =>
        .ok ⟨content, match first.tool_calls with
                      | none => []
                      | some calls => calls⟩

/-- Embeds `TaskCompleted::done` (src/research/src/research.rs): the run
stops once the last message is a Tool result named complete_task. -/
def TaskCompleted.done (history : List Message) : Bool :=
  match history.getLast? with
  | some (Message.tool _ name _) => name == "complete_task"
  | _ => false

/-- Embeds `CompleteTask::invoke_fn` (src/research/src/research.rs): the
terminal completion tool answers its call with a Tool message named
complete_task carrying the parsed result string. -/
def CompleteTask.invoke_fn (callId result : String) : Except Error Message :=
  .ok (Message.tool callId "complete_task" result)

/-- Embeds `WaitForSubAgent::invoke_fn` (src/research/src/research.rs).
The `join_next` outcome on the handle set is abstracted as `joined`: none
when no sub-agent task is outstanding, otherwise the completed child run
result (join errors folded into the error payload by the source). The
source then pops the final message of the child transcript and accepts it
only when it is a Tool result named return_task_result. -/
def WaitForSubAgent.invoke_fn (callId : String)
    (joined : Option (Except Error (List Message))) : Except Error Message :=
  match joined with
  | none =>
      .ok (Message.tool callId "wait_for_subagent"
        "no sub-agents are currently active, create a new sub-agent to wait for a task")
  | some (.error e) => .error e
  | some (.ok messages) =>
    match messages.getLast? with
    | some (Message.tool _ name result) =>
      if name == "return_task_result" then
        .ok (Message.tool callId "wait_for_subagent" result)
      else
        .error (.agentWorkflowError "sub agent terminated without correct tool call")
    | _ => .error (.agentWorkflowError "sub agent terminated without correct tool call")

/-- A constant LLM backend used to instantiate theorems on concrete
inputs. -/
def llmConst (s : String) : LLMFn := fun _ _ _ => .ok ⟨s, []⟩

/-- C10: the MessageLogger callback is an identity transform on the
transcript: it returns exactly the messages it received, and its only
state effects are recording the incoming hash sequence as the new baseline
and incrementing the step counter (the writes go to the sink, returned
here as log entries). -/
theorem message_logger_identity (getHash : Message → Nat) (st : MessageLogger)
    (messages : List Message) :
    (MessageLogger.call getHash st messages).2.2 = messages ∧
    (MessageLogger.call getHash st messages).1 =
      ⟨messages.map getHash, st.step + 1⟩ :=
  ⟨rfl, rfl⟩

/-- C5: invoking an adapted FunctionalTool returns the input transcript
with exactly the single result message of the functional tool appended;
no pre-existing message is modified, removed or reordered. -/
theorem functional_tool_appends_one (invoke_fn : ToolCall → Except Error Message)
    (args : ToolCall) (messages : List Message) (result : Message)
    (h : invoke_fn args = .ok result) :
    functionalToolInvoke invoke_fn args messages = .ok (messages ++ [result]) := by
  simp [functionalToolInvoke, h]

/-- Witness for C5: the adapter on a concrete double tool appends the one
Tool result to a one-message transcript. -/
theorem functional_tool_appends_one_witness :
    functionalToolInvoke (fun c => .ok (Message.tool c.id "double" "2 * 123 = 246"))
        ⟨"call1", "double", "args123"⟩ [Message.user "do stuff"] =
      .ok [Message.user "do stuff", Message.tool "call1" "double" "2 * 123 = 246"] :=
  functional_tool_appends_one _ _ _ _ rfl

/-- C2 (code bug): the response validation of `OpenAI::completion`
compares the first-choice role against `Role::User` while its own error
message says it expects the assistant role: a compliant backend response
with role assistant is rejected with `LLMResponseError`, and a response
with role user is accepted; the empty-choices and missing-content checks
behave as specified. -/
theorem openai_completion_role_check_bug :
    OpenAI.completion [⟨Role.assistant, some "hello", none⟩] =
      .error (.llmResponseError "expected role to be assistant") ∧
    OpenAI.completion [⟨Role.user, some "hello", some [⟨"c1", "t", "rawargs"⟩]⟩] =
      .ok ⟨"hello", [⟨"c1", "t", "rawargs"⟩]⟩ ∧
    OpenAI.completion [] = .error (.llmResponseError "choices is empty") ∧
    OpenAI.completion [⟨Role.user, none, none⟩] =
      .error (.llmResponseError "content is empty") :=
  ⟨rfl, rfl, rfl, rfl⟩

/-- C1 (code bug): a child agent can only reach its stop condition with a
final Tool message named complete_task (the terminal tool
`CompleteTask` emits exactly that name), yet `WaitForSubAgent::invoke_fn`
accepts only the name return_task_result, so every properly completed
child is reported as `AgentWorkflowError`; the zero-outstanding-tasks
branch returns the informational Tool message as specified. -/
theorem wait_for_subagent_complete_task_bug :
    TaskCompleted.done [Message.system "sys", Message.user "task",
        Message.tool "c1" "complete_task" "the answer"] = true ∧
    CompleteTask.invoke_fn "c1" "the answer" =
      .ok (Message.tool "c1" "complete_task" "the answer") ∧
    WaitForSubAgent.invoke_fn "w1"
        (some (.ok [Message.system "sys", Message.user "task",
          Message.tool "c1" "complete_task" "the answer"])) =
      .error (.agentWorkflowError "sub agent terminated without correct tool call") ∧
    WaitForSubAgent.invoke_fn "w1" none =
      .ok (Message.tool "w1" "wait_for_subagent"
        "no sub-agents are currently active, create a new sub-agent to wait for a task") :=
  ⟨rfl, rfl, rfl, rfl⟩

/-- C4: compaction is a no-op on transcripts shorter than 2 + keep_last;
otherwise the successful result has exactly 3 + keep_last messages, keeps
the first two input messages, places one Assistant summary message with no
tool calls third, and ends with the last keep_last input messages
verbatim. -/
theorem summarize_history_shape (llm : LLMFn) (keep_last : Nat)
    (messages ms2 : List Message) :
    (messages.length < 2 + keep_last →
      summarize_history llm keep_last messages = .ok messages) ∧
    (¬ messages.length < 2 + keep_last →
      summarize_history llm keep_last messages = .ok ms2 →
      ms2.length = 3 + keep_last ∧
      ms2.take 2 = messages.take 2 ∧
      ms2.drop 3 = messages.drop (messages.length - keep_last) ∧
      ∃ s, ms2 = messages.take 2 ++ [Message.assistant s []] ++
        messages.drop (messages.length - keep_last)) := by
  constructor
  · intro h
    simp [summarize_history, h]
  · intro h hok
    have hlen : 2 + keep_last ≤ messages.length := Nat.le_of_not_lt h
    have h2 : 2 ≤ messages.length - keep_last := by omega
    rw [summarize_history] at hok
    rw [if_neg h] at hok
    rcases hllm : llm (messages.take (messages.length - keep_last) ++
        [Message.user summarizePrompt]) [] false with e | r
    · rw [hllm] at hok
      simp at hok
    · rw [hllm] at hok
      simp only [Except.ok.injEq] at hok
      have htk : (messages.take (messages.length - keep_last) ++
          [Message.user summarizePrompt]).take 2 = messages.take 2 := by
        rw [List.take_append_eq_append_take]
        have hl : (messages.take (messages.length - keep_last)).length =
            messages.length - keep_last := by
          rw [List.length_take]
          omega
        rw [hl]
        have : 2 - (messages.length - keep_last) = 0 := by omega
        rw [this]
        simp [List.take_take]
        omega
      subst hok
      rw [htk]
      refine ⟨?_, ?_, ?_, ⟨r.content, rfl⟩⟩
      · simp only [List.length_append, List.length_take, List.length_cons,
          List.length_nil, List.length_drop]
        omega
      · have hl2 : (messages.take 2).length = 2 := by
          rw [List.length_take]; omega
        have hl3 : (messages.take 2 ++ [Message.assistant r.content []]).length = 3 := by
          simp only [List.length_append, List.length_cons, List.length_nil, hl2]
        rw [List.take_append_eq_append_take, hl3]
        simp only [show (2 : Nat) - 3 = 0 from rfl, List.take_zero, List.append_nil]
        rw [List.take_append_eq_append_take, hl2]
        simp [List.take_take]
      · have hl3 : ((messages.take 2 ++ [Message.assistant r.content []])).length = 3 := by
          simp only [List.length_append, List.length_take, List.length_cons, List.length_nil]
          omega
        rw [List.append_assoc] at *
        rw [show (3 : Nat) = 2 + 1 by rfl]
        rw [List.drop_append_eq_append_drop]
        have hl2 : (messages.take 2).length = 2 := by
          rw [List.length_take]; omega
        rw [hl2]
        simp

/-- A concrete four-message transcript used to instantiate theorems. -/
def exInput4 : List Message :=
  [Message.system "s", Message.user "u", Message.assistant "a" [],
   Message.tool "i" "t" "r"]

/-- The compaction of `exInput4` with keep_last 1 under the constant
backend answering "sum". -/
def exOutput4 : List Message :=
  [Message.system "s", Message.user "u", Message.assistant "sum" [],
   Message.tool "i" "t" "r"]

/-- Witness for C4: on a concrete four-message transcript with keep_last 1
the compaction yields the 4-message shape, and with keep_last 5 it is a
no-op. -/
theorem summarize_history_shape_witness :
    (exOutput4.length = 3 + 1 ∧
     exOutput4.take 2 = exInput4.take 2 ∧
     exOutput4.drop 3 = exInput4.drop (exInput4.length - 1) ∧
     ∃ s, exOutput4 = exInput4.take 2 ++ [Message.assistant s []] ++
       exInput4.drop (exInput4.length - 1)) ∧
    summarize_history (llmConst "sum") 5 exInput4 = .ok exInput4 :=
  ⟨(summarize_history_shape (llmConst "sum") 1 exInput4 exOutput4).2 (by decide) rfl,
   (summarize_history_shape (llmConst "sum") 5 exInput4 exInput4).1 (by decide)⟩

/-- C8: the SummarizeHistory callback passes the transcript through
unchanged, independently of the backend (so without issuing any completion
request), when the total whitespace-delimited word count is at most 5000,
and invokes the compaction algorithm exactly when that count exceeds
5000. -/
theorem summarize_callback_threshold (keep_last : Nat) (messages : List Message) :
    ((messages.map Message.ntokens).sum ≤ 5000 →
      ∀ llm : LLMFn, summarizeHistoryCallback llm keep_last messages = .ok messages) ∧
    ((messages.map Message.ntokens).sum > 5000 →
      ∀ llm : LLMFn, summarizeHistoryCallback llm keep_last messages =
        summarize_history llm keep_last messages) := by
  constructor
  · intro h llm
    rw [summarizeHistoryCallback, if_neg (by omega)]
  · intro h llm
    rw [summarizeHistoryCallback, if_pos h]

/-- Witness for C8: a three-word transcript is passed through unchanged,
and a transcript of 5001 one-word messages triggers compaction. -/
theorem summarize_callback_threshold_witness :
    summarizeHistoryCallback (llmConst "sum") 2 [Message.user "a b c"] =
      .ok [Message.user "a b c"] ∧
    summarizeHistoryCallback (llmConst "sum") 2
        (List.replicate 5001 (Message.user "w")) =
      summarize_history (llmConst "sum") 2 (List.replicate 5001 (Message.user "w")) :=
  ⟨(summarize_callback_threshold 2 _).1 (by decide) _,
   (summarize_callback_threshold 2 _).2 (by
      rw [List.map_replicate, List.sum_replicate, smul_eq_mul]
      decide) _⟩

/-- The incoming hash sequence extends the recorded baseline: it is at
least as long and agrees with it on every shared position. -/
def hashExtends (old new : List Nat) : Prop :=
  old.length ≤ new.length ∧ new.take old.length = old

instance (old new : List Nat) : Decidable (hashExtends old new) := by
  unfold hashExtends
  infer_instance

/-- The zipped agreement count reaches the baseline length exactly when
the incoming sequence starts with the baseline. -/
theorem zip_countP_eq_iff (new old : List Nat) (h : old.length ≤ new.length) :
    (new.zip old).countP (fun p => p.1 == p.2) = old.length ↔
      new.take old.length = old := by
  induction old generalizing new with
  | nil => simp
  | cons a t ih =>
    cases new with
    | nil => simp at h
    | cons b nt =>
      have hle : t.length ≤ nt.length := by
        simp only [List.length_cons] at h
        omega
      have hcount : (nt.zip t).countP (fun p => p.1 == p.2) ≤ t.length := by
        have h1 : (nt.zip t).countP (fun p => p.1 == p.2) ≤ (nt.zip t).length :=
          List.countP_le_length _
        have h2 : (nt.zip t).length = min nt.length t.length := List.length_zip nt t
        rw [h2] at h1
        omega
      have hiff := ih nt hle
      simp only [List.zip_cons_cons, List.countP_cons, List.length_cons,
        List.take_succ_cons, List.cons.injEq]
      by_cases hba : b = a
      · subst hba
        have hbeq : (b == b) = true := beq_self_eq_true b
        rw [hbeq, if_pos rfl]
        constructor
        · intro hc
          exact ⟨rfl, hiff.1 (by omega)⟩
        · rintro ⟨-, htk⟩
          have := hiff.2 htk
          omega
      · have hbeq : (b == a) = false := beq_eq_false_iff_ne.mpr hba
        rw [hbeq, if_neg Bool.false_ne_true]
        constructor
        · intro hc
          omega
        · rintro ⟨hc, -⟩
          exact absurd hc hba

/-- C7: when the incoming per-message hash sequence extends the recorded
baseline, the logger emits only the messages beyond the baseline length
(one step section, so across successive proper prefix-extensions each
message is emitted exactly once); when the incoming sequence is shorter or
differs at a shared position, it emits the history-cleared marker followed
by the entire current transcript; either way the new baseline is the
incoming hash sequence. -/
theorem message_logger_behavior (getHash : Message → Nat) (st : MessageLogger)
    (messages : List Message) :
    (hashExtends st.last_hashes (messages.map getHash) →
      MessageLogger.call getHash st messages =
        (⟨messages.map getHash, st.step + 1⟩,
         MessageLogger.display_messages st.step
           (messages.drop st.last_hashes.length),
         messages)) ∧
    (¬ hashExtends st.last_hashes (messages.map getHash) →
      MessageLogger.call getHash st messages =
        (⟨messages.map getHash, st.step + 1⟩,
         LogEntry.historyCleared ::
           MessageLogger.display_messages st.step messages,
         messages)) := by
  constructor
  · rintro ⟨hle, htake⟩
    rw [MessageLogger.call, if_neg]
    push_neg
    refine ⟨by omega, ?_⟩
    rw [MessageLogger.prefix_match_len]
    exact (zip_countP_eq_iff _ _ hle).2 htake
  · intro hnot
    rw [MessageLogger.call, if_pos]
    by_cases hlt : (messages.map getHash).length < st.last_hashes.length
    · exact Or.inl hlt
    · refine Or.inr ?_
      intro hc
      apply hnot
      have hle : st.last_hashes.length ≤ (messages.map getHash).length := by omega
      exact ⟨hle, (zip_countP_eq_iff _ _ hle).1 hc⟩

/-- Witness for C7: with the word-count hash, a first call from the empty
baseline emits the whole transcript as the suffix, and a call whose
baseline is longer than the incoming transcript emits the cleared marker
followed by the whole transcript. -/
theorem message_logger_behavior_witness :
    MessageLogger.call Message.ntokens ⟨[], 0⟩ [Message.user "a"] =
      (⟨[1], 1⟩,
       MessageLogger.display_messages 0 ([Message.user "a"].drop 0),
       [Message.user "a"]) ∧
    MessageLogger.call Message.ntokens ⟨[7, 8], 1⟩ [Message.user "a"] =
      (⟨[1], 2⟩,
       LogEntry.historyCleared :: MessageLogger.display_messages 1 [Message.user "a"],
       [Message.user "a"]) :=
  ⟨(message_logger_behavior Message.ntokens ⟨[], 0⟩ [Message.user "a"]).1 (by decide),
   (message_logger_behavior Message.ntokens ⟨[7, 8], 1⟩ [Message.user "a"]).2 (by decide)⟩


/-- Replacing the value at key k rewrites no other binding. -/
theorem getVal_map_replace_ne (m : Memory) (k v q : String) (h : q ≠ k) :
    Memory.getVal (m.map fun p => if p.1 == k then (k, v) else p) q =
      m.getVal q := by
  induction m with
  | nil => rfl
  | cons hd tl ih =>
    by_cases hhd : hd.1 = k
    · have hb : (hd.1 == k) = true := beq_iff_eq.mpr hhd
      have hq : (hd.1 == q) = false :=
        beq_eq_false_iff_ne.mpr fun hc => h (hc.symm.trans hhd)
      have hkq : (k == q) = false := beq_eq_false_iff_ne.mpr fun hc => h hc.symm
      simp only [List.map_cons, hb, if_true, Memory.getVal, hkq, hq,
        Bool.false_eq_true, if_false]
      exact ih
    · have hb : (hd.1 == k) = false := beq_eq_false_iff_ne.mpr hhd
      simp only [List.map_cons, hb, Bool.false_eq_true, if_false, Memory.getVal]
      cases hq : (hd.1 == q) with
      | true => simp [hq]
      | false => simp only [hq, Bool.false_eq_true, if_false]; exact ih

/-- Replacing the value at a present key makes lookup at that key return
the new value. -/
theorem getVal_map_replace_self (m : Memory) (k v : String)
    (hany : (m.any fun p => p.1 == k) = true) :
    Memory.getVal (m.map fun p => if p.1 == k then (k, v) else p) k = some v := by
  induction m with
  | nil => simp at hany
  | cons hd tl ih =>
    by_cases hhd : hd.1 = k
    · have hb : (hd.1 == k) = true := beq_iff_eq.mpr hhd
      simp only [List.map_cons, hb, if_true, Memory.getVal, beq_self_eq_true, if_true]
    · have hb : (hd.1 == k) = false := beq_eq_false_iff_ne.mpr hhd
      simp only [List.any_cons, hb, Bool.false_or] at hany
      simp only [List.map_cons, hb, Bool.false_eq_true, if_false, Memory.getVal]
      exact ih hany

/-- Lookup misses every binding of an absent key. -/
theorem getVal_eq_none_of_not_any (m : Memory) (q : String)
    (hnone : (m.any fun p => p.1 == q) = false) :
    Memory.getVal m q = none := by
  induction m with
  | nil => rfl
  | cons hd tl ih =>
    simp only [List.any_cons, Bool.or_eq_false_iff] at hnone
    rw [Memory.getVal, if_neg (by simp [hnone.1])]
    exact ih hnone.2

/-- Lookup over an appended binding list starts in the left part. -/
theorem getVal_append (m l : Memory) (q : String) :
    Memory.getVal (m ++ l) q =
      match m.getVal q with
      | some x => some x
      | none => l.getVal q := by
  induction m with
  | nil => rfl
  | cons hd tl ih =>
    simp only [List.cons_append, Memory.getVal]
    cases hq : (hd.1 == q) with
    | true => simp
    | false => simp only [Bool.false_eq_true, if_false]; exact ih

/-- HashMap insert followed by lookup: the inserted key maps to the new
value and every other key is untouched. -/
theorem getVal_insertKV (m : Memory) (k v q : String) :
    (m.insertKV k v).getVal q = if q = k then some v else m.getVal q := by
  rw [Memory.insertKV]
  cases hany : (m.any fun p => p.1 == k) with
  | true =>
    rw [if_pos rfl]
    by_cases hq : q = k
    · subst hq
      rw [if_pos rfl]
      exact getVal_map_replace_self m q v hany
    · rw [if_neg hq]
      exact getVal_map_replace_ne m k v q hq
  | false =>
    rw [if_neg Bool.false_ne_true, getVal_append]
    by_cases hq : q = k
    · subst hq
      rw [getVal_eq_none_of_not_any m q hany]
      simp [Memory.getVal]
    · rw [if_neg hq]
      cases hgv : m.getVal q with
      | some x => rfl
      | none =>
        have hkq : (k == q) = false := beq_eq_false_iff_ne.mpr fun hc => hq hc.symm
        simp [Memory.getVal, hkq]

/-- Replacing a value changes no keys. -/
theorem keys_map_replace (m : Memory) (k v : String) :
    (m.map fun p => if p.1 == k then (k, v) else p).map Prod.fst =
      m.map Prod.fst := by
  induction m with
  | nil => rfl
  | cons hd tl ih =>
    simp only [List.map_cons, ih, List.cons.injEq, and_true]
    by_cases hhd : hd.1 = k
    · simp [beq_iff_eq.mpr hhd, hhd]
    · simp [beq_eq_false_iff_ne.mpr hhd]

/-- A present key witnesses itself among the keys. -/
theorem mem_keys_of_any (m : Memory) (k : String)
    (hany : (m.any fun p => p.1 == k) = true) :
    k ∈ m.map Prod.fst := by
  induction m with
  | nil => simp at hany
  | cons hd tl ih =>
    simp only [List.any_cons, Bool.or_eq_true] at hany
    rcases hany with h | h
    · simp only [List.map_cons, List.mem_cons]
      exact Or.inl (beq_iff_eq.mp h).symm
    · simp only [List.map_cons, List.mem_cons]
      exact Or.inr (ih h)

/-- The keys after an insert are the old keys plus the inserted key. -/
theorem mem_keys_insertKV (m : Memory) (k v q : String) :
    q ∈ (m.insertKV k v).map Prod.fst ↔ q ∈ m.map Prod.fst ∨ q = k := by
  rw [Memory.insertKV]
  cases hany : (m.any fun p => p.1 == k) with
  | true =>
    rw [if_pos rfl, keys_map_replace]
    constructor
    · exact Or.inl
    · rintro (h | h)
      · exact h
      · subst h
        exact mem_keys_of_any m q hany
  | false =>
    rw [if_neg Bool.false_ne_true]
    simp [List.map_append]

/-- Applying one more set operation peels off the head. -/
theorem applySets_cons (hd : String × String) (tl : List (String × String))
    (m : Memory) :
    Memory.applySets (hd :: tl) m = Memory.applySets tl (m.insertKV hd.1 hd.2) :=
  rfl

/-- Later set operations on other keys do not disturb a lookup. -/
theorem getVal_applySets_ne (later : List (String × String)) (m : Memory)
    (k : String) (h : ∀ p ∈ later, p.1 ≠ k) :
    (Memory.applySets later m).getVal k = m.getVal k := by
  induction later generalizing m with
  | nil => rfl
  | cons hd tl ih =>
    rw [applySets_cons, ih _ fun p hp => h p (List.mem_cons_of_mem hd hp),
      getVal_insertKV, if_neg]
    intro hc
    exact h hd (List.mem_cons_self hd tl) hc.symm

/-- The keys after a sequence of set operations are the initial keys plus
the keys that were set. -/
theorem mem_keys_applySets (sets : List (String × String)) (m : Memory)
    (q : String) :
    q ∈ (Memory.applySets sets m).map Prod.fst ↔
      q ∈ m.map Prod.fst ∨ q ∈ sets.map Prod.fst := by
  induction sets generalizing m with
  | nil => simp [Memory.applySets]
  | cons hd tl ih =>
    rw [applySets_cons, ih, mem_keys_insertKV]
    simp only [List.map_cons, List.mem_cons]
    tauto

/-- C9: setting a key and then getting it, with no intervening set of that
key, yields a Tool message rendering the stored value; getting a key that
was never set yields the not-in-memory Tool message without error; and the
store enumerated by memory_list_keys holds exactly the keys previously
set. -/
theorem kv_memory_tools_spec (m : Memory) (k v cid cid0 : String)
    (later sets : List (String × String)) :
    ((∀ p ∈ later, p.1 ≠ k) →
      MemoryGetTool.invoke_fn
          (Memory.applySets later (MemorySetTool.invoke_fn m cid0 k v).2) cid k =
        .ok (Message.tool cid "memory_get_key"
          ("value of key " ++ k ++ ":\n" ++ v))) ∧
    ((∀ p ∈ sets, p.1 ≠ k) →
      MemoryGetTool.invoke_fn (Memory.applySets sets []) cid k =
        .ok (Message.tool cid "memory_get_key"
          ("key " ++ k ++ " is not in memory"))) ∧
    (∀ q, q ∈ (Memory.applySets sets []).map Prod.fst ↔ q ∈ sets.map Prod.fst) := by
  refine ⟨?_, ?_, ?_⟩
  · intro h
    rw [MemoryGetTool.invoke_fn, KVMemoryTool.get_key]
    have : (Memory.applySets later (MemorySetTool.invoke_fn m cid0 k v).2).getVal k =
        some v := by
      rw [getVal_applySets_ne later _ k h]
      show (m.insertKV k v).getVal k = some v
      rw [getVal_insertKV, if_pos rfl]
    rw [this]
  · intro h
    rw [MemoryGetTool.invoke_fn, KVMemoryTool.get_key]
    have : (Memory.applySets sets ([] : Memory)).getVal k = none := by
      rw [getVal_applySets_ne sets _ k h]
      rfl
    rw [this]
  · intro q
    rw [mem_keys_applySets]
    simp

/-- Witness for C9: set abc to 123, set xyz afterwards, get abc returns
123; get abc on a store where only xyz was set reports it absent; xyz is
among the keys after being set. -/
theorem kv_memory_tools_spec_witness :
    MemoryGetTool.invoke_fn
        (Memory.applySets [("xyz", "456")]
          (MemorySetTool.invoke_fn [] "c0" "abc" "123").2) "c1" "abc" =
      .ok (Message.tool "c1" "memory_get_key" "value of key abc:\n123") ∧
    MemoryGetTool.invoke_fn (Memory.applySets [("xyz", "456")] []) "c2" "abc" =
      .ok (Message.tool "c2" "memory_get_key" "key abc is not in memory") ∧
    ("xyz" ∈ (Memory.applySets [("xyz", "456")] []).map Prod.fst ↔
      "xyz" ∈ [("xyz", "456")].map Prod.fst) :=
  ⟨(kv_memory_tools_spec [] "abc" "123" "c1" "c0" [("xyz", "456")] [("xyz", "456")]).1
      (by decide),
   (kv_memory_tools_spec [] "abc" "123" "c2" "c0" [("xyz", "456")] [("xyz", "456")]).2.1
      (by decide),
   (kv_memory_tools_spec [] "abc" "123" "c2" "c0" [("xyz", "456")] [("xyz", "456")]).2.2
      "xyz"⟩

/-- Rebuilds an agent with a different callback chain (all other fields
unchanged). -/
def Agent.withCallbacks (a : Agent) (cbs : List CallbackImpl) : Agent :=
  ⟨a.llm, a.tools, a.tool_defs, cbs, a.stop_condition, a.llm_websearch⟩

/-- Tool dispatch does not depend on the callback chain. -/
theorem executeToolCalls_withCallbacks (a : Agent) (cbs : List CallbackImpl)
    (calls : List ToolCall) (msgs : List Message) :
    (a.withCallbacks cbs).executeToolCalls calls msgs =
      a.executeToolCalls calls msgs := by
  induction calls generalizing msgs with
  | nil => rfl
  | cons c rest ih =>
    rw [Agent.executeToolCalls, Agent.executeToolCalls]
    have hexec : (a.withCallbacks cbs).execute_tool_call c msgs =
        a.execute_tool_call c msgs := rfl
    rw [hexec]
    cases a.execute_tool_call c msgs with
    | error e => rfl
    | ok ms => exact ih ms

/-- A dispatch failure makes the whole iteration fail with the same error,
for every callback chain. -/
theorem runStep_error_of_dispatch_error (a : Agent) (cbs : List CallbackImpl)
    (msgs : List Message) (next : CompletionResponse) (e : Error)
    (hllm : a.llm msgs a.tool_defs a.llm_websearch = .ok next)
    (herr : a.executeToolCalls next.tool_calls
      (msgs ++ [Message.assistant next.content next.tool_calls]) = .error e) :
    (a.withCallbacks cbs).runStep msgs = .error e := by
  have h1 : (a.withCallbacks cbs).llm = a.llm := rfl
  have h2 : (a.withCallbacks cbs).tool_defs = a.tool_defs := rfl
  have h3 : (a.withCallbacks cbs).llm_websearch = a.llm_websearch := rfl
  simp only [Agent.runStep, h1, h2, h3, hllm]
  rw [executeToolCalls_withCallbacks, herr]

/-- C6: within one iteration the tool calls are dispatched strictly in
array order, the call after a prefix receiving exactly the transcript the
prefix produced; a call whose name is not in the registry aborts with
ToolDoesNotExist carrying that name whatever calls follow it; and when
dispatch fails the iteration propagates that error unchanged for every
callback chain (so no callback of the iteration runs) and the whole run
aborts with it. -/
theorem agent_dispatch_order (a : Agent) (calls1 calls2 : List ToolCall)
    (tc : ToolCall) (msgs ms : List Message) (e : Error) :
    (a.executeToolCalls (calls1 ++ [tc]) msgs =
      match a.executeToolCalls calls1 msgs with
      | .error e2 => .error e2
      | .ok ms2 => a.execute_tool_call tc ms2) ∧
    (a.executeToolCalls calls1 msgs = .ok ms → a.lookupTool tc.name = none →
      a.executeToolCalls (calls1 ++ tc :: calls2) msgs =
        .error (.toolDoesNotExist tc.name)) ∧
    (∀ next : CompletionResponse,
      a.llm msgs a.tool_defs a.llm_websearch = .ok next →
      a.executeToolCalls next.tool_calls
          (msgs ++ [Message.assistant next.content next.tool_calls]) = .error e →
      ∀ cbs : List CallbackImpl,
        (a.withCallbacks cbs).runStep msgs = .error e) ∧
    (∀ fuel : Nat, a.stop_condition msgs = false → a.runStep msgs = .error e →
      a.run (fuel + 1) msgs = .error e) := by
  refine ⟨?_, ?_, ?_, ?_⟩
  · induction calls1 generalizing msgs with
    | nil =>
      show a.executeToolCalls [tc] msgs = a.execute_tool_call tc msgs
      rw [Agent.executeToolCalls]
      cases hexec : a.execute_tool_call tc msgs with
      | error e2 => rfl
      | ok ms2 => rfl
    | cons c rest ih =>
      rw [List.cons_append, Agent.executeToolCalls, Agent.executeToolCalls]
      cases hexec : a.execute_tool_call c msgs with
      | error e2 => rfl
      | ok ms2 => exact ih ms2
  · induction calls1 generalizing msgs with
    | nil =>
      intro hok hlook
      cases hok
      rw [List.nil_append, Agent.executeToolCalls, Agent.execute_tool_call, hlook]
    | cons c rest ih =>
      intro hok hlook
      rw [Agent.executeToolCalls] at hok
      rw [List.cons_append, Agent.executeToolCalls]
      cases hexec : a.execute_tool_call c msgs with
      | error e2 =>
        rw [hexec] at hok
        exact absurd hok (by simp)
      | ok ms2 =>
        rw [hexec] at hok
        exact ih ms2 hok hlook
  · intro next hllm herr cbs
    exact runStep_error_of_dispatch_error a cbs msgs next e hllm herr
  · intro fuel hstop herr
    rw [Agent.run, if_neg (by rw [hstop]; exact Bool.false_ne_true), herr]

/-- A concrete echo tool answering its call with one Tool message. -/
def exTool : ToolImpl := fun tc ms => .ok (ms ++ [Message.tool tc.id "echo" "ok"])

/-- A concrete agent whose model asks for an unregistered tool. -/
def exAgent : Agent :=
  ⟨fun _ _ _ => .ok ⟨"hi", [⟨"c1", "missing", "raw"⟩]⟩,
   [("echo", exTool)], [], [], fun _ => false, false⟩

/-- Witness for C6: on the concrete agent the snoc characterization holds,
the unregistered call aborts dispatch with ToolDoesNotExist missing, and
the whole iteration fails with that error under the empty callback
chain. -/
theorem agent_dispatch_order_witness :
    (exAgent.executeToolCalls ([] ++ [⟨"c1", "missing", "raw"⟩]) [Message.user "u"] =
      match exAgent.executeToolCalls [] [Message.user "u"] with
      | .error e2 => .error e2
      | .ok ms2 => exAgent.execute_tool_call ⟨"c1", "missing", "raw"⟩ ms2) ∧
    exAgent.executeToolCalls ([] ++ ⟨"c1", "missing", "raw"⟩ :: []) [Message.user "u"] =
      .error (.toolDoesNotExist "missing") ∧
    (exAgent.withCallbacks []).runStep [Message.user "u"] =
      .error (.toolDoesNotExist "missing") ∧
    exAgent.run 1 [Message.user "u"] = .error (.toolDoesNotExist "missing") :=
  ⟨(agent_dispatch_order exAgent [] [] ⟨"c1", "missing", "raw"⟩ [Message.user "u"]
      [Message.user "u"] (.toolDoesNotExist "missing")).1,
   (agent_dispatch_order exAgent [] [] ⟨"c1", "missing", "raw"⟩ [Message.user "u"]
      [Message.user "u"] (.toolDoesNotExist "missing")).2.1 rfl rfl,
   (agent_dispatch_order exAgent [] [] ⟨"c1", "missing", "raw"⟩ [Message.user "u"]
      [Message.user "u"] (.toolDoesNotExist "missing")).2.2.1
     ⟨"hi", [⟨"c1", "missing", "raw"⟩]⟩ rfl rfl [],
   (agent_dispatch_order exAgent [] [] ⟨"c1", "missing", "raw"⟩ [Message.user "u"]
      [Message.user "u"] (.toolDoesNotExist "missing")).2.2.2 0 rfl rfl⟩

/-- Scanning pending call ids distributes over transcript append. -/
theorem scanPending_append (t1 t2 : List Message) (p : List String) :
    scanPending (t1 ++ t2) p =
      match scanPending t1 p with
      | none => none
      | some q => scanPending t2 q := by
  induction t1 generalizing p with
  | nil => rfl
  | cons m rest ih =>
    rw [List.cons_append, scanPending, scanPending]
    cases stepPending m p with
    | none => rfl
    | some q => exact ih q

/-- A successful registry lookup yields a registered pair. -/
theorem lookupTool_mem (a : Agent) (nm : String) (tool : ToolImpl)
    (h : a.lookupTool nm = some tool) : (nm, tool) ∈ a.tools := by
  rw [Agent.lookupTool] at h
  cases hf : a.tools.find? (fun p => p.1 == nm) with
  | none =>
    rw [hf] at h
    exact absurd h (by simp)
  | some p =>
    rw [hf] at h
    simp only [Option.map_some', Option.some.injEq] at h
    have hmem := List.mem_of_find?_eq_some hf
    have hpred := List.find?_some hf
    have hp : p = (nm, tool) := by
      obtain ⟨p1, p2⟩ := p
      simp only [beq_iff_eq] at hpred
      simp only at h
      rw [Prod.mk.injEq]
      exact ⟨hpred, h⟩
    rw [hp] at hmem
    exact hmem

/-- When every registered tool answers its call by appending exactly one
Tool message carrying the call id, the dispatch loop consumes the pending
call ids in order and ends with none pending. -/
theorem executeToolCalls_pending (a : Agent)
    (htools : ∀ nm tool, (nm, tool) ∈ a.tools → ∀ tc ms ms2,
      tool tc ms = .ok ms2 → ∃ n r, ms2 = ms ++ [Message.tool tc.id n r])
    (calls : List ToolCall) (ms ms2 : List Message)
    (hscan : scanPending ms [] = some (calls.map fun c => c.id))
    (hok : a.executeToolCalls calls ms = .ok ms2) :
    scanPending ms2 [] = some [] := by
  induction calls generalizing ms with
  | nil =>
    rw [Agent.executeToolCalls] at hok
    cases hok
    simpa using hscan
  | cons c rest ih =>
    rw [Agent.executeToolCalls] at hok
    cases hexec : a.execute_tool_call c ms with
    | error e =>
      rw [hexec] at hok
      exact absurd hok (by simp)
    | ok msA =>
      rw [hexec] at hok
      rw [Agent.execute_tool_call] at hexec
      cases hlook : a.lookupTool c.name with
      | none =>
        rw [hlook] at hexec
        exact absurd hexec (by simp)
      | some tool =>
        rw [hlook] at hexec
        obtain ⟨n, r, hms⟩ :=
          htools c.name tool (lookupTool_mem a c.name tool hlook) c ms msA hexec
        subst hms
        refine ih (ms ++ [Message.tool c.id n r]) ?_ hok
        rw [scanPending_append, hscan]
        simp only [List.map_cons] at hscan ⊢
        rw [scanPending, stepPending]
        rw [if_pos (by simp), List.erase_cons_head]
        rfl

/-- A callback chain of transcript-preserving callbacks returns its
input. -/
theorem runCallbacks_identity (cbs : List CallbackImpl)
    (hcbs : ∀ cb ∈ cbs, ∀ ms ms2, cb ms = .ok ms2 → ms2 = ms)
    (ms ms2 : List Message) (h : runCallbacks cbs ms = .ok ms2) : ms2 = ms := by
  induction cbs generalizing ms with
  | nil =>
    rw [runCallbacks] at h
    cases h
    rfl
  | cons cb rest ih =>
    rw [runCallbacks] at h
    cases hcb : cb ms with
    | error e =>
      rw [hcb] at h
      exact absurd h (by simp)
    | ok msb =>
      rw [hcb] at h
      have hb : msb = ms := hcbs cb (List.mem_cons_self cb rest) ms msb hcb
      subst hb
      exact ih (fun c hc => hcbs c (List.mem_cons_of_mem cb hc)) msb h

/-- C3 (amended): provided every registered tool answers its call by
appending exactly one Tool message carrying the call id and every callback
returns the transcript it received unchanged, every transcript reachable
at a loop-iteration boundary from a well-formed initial transcript
satisfies the invariant: each Tool message answers a not-yet-answered
call of the most recent preceding Assistant message, and every tool call
of an Assistant message is answered before the next model turn. The
summarize_history tool violates the proviso, and with it the invariant
fails (see the counterexample). -/
theorem agent_loop_transcript_invariant (a : Agent) (init : List Message)
    (htools : ∀ nm tool, (nm, tool) ∈ a.tools → ∀ tc ms ms2,
      tool tc ms = .ok ms2 → ∃ n r, ms2 = ms ++ [Message.tool tc.id n r])
    (hcbs : ∀ cb ∈ a.callbacks, ∀ ms ms2, cb ms = .ok ms2 → ms2 = ms)
    (hinit : wfTranscript init = true) :
    ∀ t, a.Reach init t → wfTranscript t = true := by
  intro t hreach
  induction hreach with
  | here => exact hinit
  | @next t1 u hre hstop hstep ih =>
    rw [Agent.runStep] at hstep
    cases hllm : a.llm t1 a.tool_defs a.llm_websearch with
    | error e =>
      simp only [hllm] at hstep
      exact absurd hstep (by simp)
    | ok nxt =>
      simp only [hllm] at hstep
      cases hexec : a.executeToolCalls nxt.tool_calls
          (t1 ++ [Message.assistant nxt.content nxt.tool_calls]) with
      | error e =>
        simp only [hexec] at hstep
        exact absurd hstep (by simp)
      | ok ms2 =>
        simp only [hexec] at hstep
        have hu : u = ms2 := runCallbacks_identity a.callbacks hcbs ms2 u hstep
        have hwf1 : scanPending t1 [] = some [] := by
          have := ih
          rw [wfTranscript] at this
          exact eq_of_beq this
        have hscan : scanPending
            (t1 ++ [Message.assistant nxt.content nxt.tool_calls]) [] =
            some (nxt.tool_calls.map fun c => c.id) := by
          rw [scanPending_append, hwf1]
          rfl
        have hwf2 := executeToolCalls_pending a htools nxt.tool_calls _ ms2 hscan hexec
        rw [hu, wfTranscript, hwf2]
        rfl

/-- The SummarizeHistory tool as registered in the agent: it ignores the
call and rewrites the transcript with the compaction algorithm. -/
def summarizeHistoryTool (llm : LLMFn) (keep_last : Nat) : ToolImpl :=
  fun _ ms => summarize_history llm keep_last ms

/-- A concrete agent registering the summarize_history tool, whose model
requests one summarize_history call. -/
def cAgent : Agent :=
  ⟨fun _ _ _ => .ok ⟨"working", [⟨"id1", "summarize_history", "raw"⟩]⟩,
   [("summarize_history", summarizeHistoryTool (llmConst "sum") 2)],
   [], [], fun _ => false, false⟩

/-- The initial system plus user transcript for the counterexample. -/
def cInit : List Message := [Message.system "sys", Message.user "task"]

/-- The transcript reached after one full iteration of `cAgent`. -/
def cT : List Message :=
  [Message.system "sys", Message.user "task",
   Message.assistant "working" [⟨"id1", "summarize_history", "raw"⟩]]

/-- Counterexample for C3: one loop iteration that invokes the registered
summarize_history tool reaches a transcript whose Assistant tool call
remains unanswered at the next model turn, so the claimed invariant is
false for the code as written. -/
theorem agent_loop_transcript_invariant_counterexample :
    cAgent.Reach cInit cT ∧ wfTranscript cInit = true ∧ wfTranscript cT = false :=
  ⟨Agent.Reach.next Agent.Reach.here rfl rfl, rfl, rfl⟩

/-- A concrete agent with no tools and no callbacks. -/
def wAgent : Agent :=
  ⟨fun _ _ _ => .ok ⟨"hi", []⟩, [], [], [], fun _ => false, false⟩

/-- The transcript reached by one iteration of `wAgent` from `cInit`. -/
def wT : List Message :=
  [Message.system "sys", Message.user "task", Message.assistant "hi" []]

/-- Witness for C3 (amended): on the tool-free concrete agent the
transcript reached after one iteration satisfies the invariant. -/
theorem agent_loop_transcript_invariant_witness :
    wfTranscript wT = true :=
  agent_loop_transcript_invariant wAgent cInit
    (by
      intro nm tool h
      exact absurd h (List.not_mem_nil (nm, tool)))
    (by
      intro cb h
      exact absurd h (List.not_mem_nil cb))
    rfl wT (Agent.Reach.next Agent.Reach.here rfl rfl)
